import Mathlib

set_option maxRecDepth 200000
set_option maxHeartbeats 1000000

/-!
Verification of the statement-mining script of this repository
(scripts/statement-miner.py).  The Python functions that the claims are
about are shallowly embedded below: strings are `List Char` wrapped in
`String`, and each `re.sub(pattern, replacement, text, flags=re.I)` call is
embedded through a small backtracking regular-expression engine (`mtch`,
`pysub`) that follows the Python `re` semantics used by the script:
leftmost match, alternation tried left to right, greedy and lazy
quantifiers, word boundaries, width-one negative lookbehind and negative
lookahead, case-insensitive comparison.  The whitespace class (shared
by the regex `\s` and by `str.strip`) is modelled exactly; the other
Unicode-dependent predicates (Python `\w`, `str.lower`) are modelled on
the character repertoire that the repository actually uses (ASCII,
Latin-1, Latin Extended, Greek, and the symbols of the transliteration
table); outside that repertoire the script is never exercised by the
theorems below.
-/

/-- Python whitespace class matcher, the common set of the regex class
and of `str.strip` and `str.isspace`: tab, newline, vertical tab, form
feed, carriage return, the separator controls 28 to 31, space, next
line 133, no-break space 160, ogham space mark, the en-quad to
hair-space range, line separator, paragraph separator, narrow no-break
space, medium mathematical space and ideographic space. -/
def pyIsSpace (c : Char) : Bool :=
  let n := c.toNat
  (9 ≤ n && n ≤ 13) || (28 ≤ n && n ≤ 32) || n = 0x85 || n = 0xA0 ||
  n = 0x1680 || (0x2000 ≤ n && n ≤ 0x200A) || n = 0x2028 || n = 0x2029 ||
  n = 0x202F || n = 0x205F || n = 0x3000

/-- Python decimal-digit class matcher, ASCII repertoire. -/
def pyIsDigit (c : Char) : Bool :=
  48 ≤ c.toNat && c.toNat ≤ 57

/-- Python Unicode word-character class (letters, digits, numeric forms,
underscore), restricted to the repertoire relevant for this repository:
ASCII alphanumerics and underscore, the Latin-1 letters and numeric signs
that Python treats as alphanumeric (including the superscripts and vulgar
fractions, ordinal indicators and micro sign), Latin Extended-A, Latin
Extended Additional, the Greek letters, and the script small l.  The
degree sign 176, the multiplication sign 215 and the division sign 247
are not word characters, matching Python. -/
def pyIsWord (c : Char) : Bool :=
  let n := c.toNat
  (48 ≤ n && n ≤ 57) || (65 ≤ n && n ≤ 90) || (97 ≤ n && n ≤ 122) ||
  n = 95 ||
  n = 170 || n = 178 || n = 179 || n = 181 || n = 185 || n = 186 ||
  (188 ≤ n && n ≤ 190) ||
  (192 ≤ n && n ≤ 214) || (216 ≤ n && n ≤ 246) || (248 ≤ n && n ≤ 383) ||
  (0x1E00 ≤ n && n ≤ 0x1EFF) ||
  (0x391 ≤ n && n ≤ 0x3C9 && n ≠ 0x3A2) ||
  n = 0x2113

/-- Build a character from a code point below the surrogate range. -/
def mkChar (n : Nat) (h : n < 55296) : Char :=
  ⟨⟨⟨n, by omega⟩⟩, Or.inl (by simpa using h)⟩

/-- Python `str.lower` on one character, on the repertoire used here:
ASCII capitals, Latin-1 capitals (excluding the multiplication sign) and
Greek capitals are shifted by 32, everything else is fixed. -/
def pyLower (c : Char) : Char :=
  let n := c.toNat
  if h : (65 ≤ n ∧ n ≤ 90) ∨ (192 ≤ n ∧ n ≤ 222 ∧ n ≠ 215) ∨
      (913 ≤ n ∧ n ≤ 937 ∧ n ≠ 930) then
    mkChar (n + 32) (by omega)
  else c

/-- Uppercase-letter test matching the trigger ranges of `pyLower`. -/
def isUpperLetter (c : Char) : Bool :=
  let n := c.toNat
  (65 ≤ n && n ≤ 90) || (192 ≤ n && n ≤ 222 && n ≠ 215) ||
  (913 ≤ n && n ≤ 937 && n ≠ 930)

/-- Python `str.lower` on a string. -/
def strLower (s : String) : String := ⟨s.data.map pyLower⟩

/-- Items of a regular-expression character class. -/
inductive ClsItem where
  | ch (c : Char)
  | rng (lo hi : Char)
  | dig
  | wrd
  | spc

/-- One class item applied to one character. -/
def clsItemHit (c : Char) : ClsItem → Bool
  | .ch d => c = d
  | .rng lo hi => lo ≤ c && c ≤ hi
  | .dig => pyIsDigit c
  | .wrd => pyIsWord c
  | .spc => pyIsSpace c

/-- Class membership with the case-insensitive flag: the character or its
lowercase form may hit an item; a negated class inverts the result. -/
def clsHit (neg : Bool) (items : List ClsItem) (c : Char) : Bool :=
  let m := items.any (clsItemHit c) || items.any (clsItemHit (pyLower c))
  if neg then !m else m

/-- Abstract syntax of the regular expressions used by the script.  All
substitutions in the script run under `re.I`, so the matcher compares
literals case-insensitively throughout.  Groups are only grouping: no
replacement string of the script uses backreferences. -/
inductive Rgx where
  | fail
  | eps
  | anyc
  | lit (c : Char)
  | cls (neg : Bool) (items : List ClsItem)
  | seq (a b : Rgx)
  | alt (a b : Rgx)
  | star (lazy : Bool) (a : Rgx)
  | opt (lazy : Bool) (a : Rgx)
  | wordB
  | nla (a : Rgx)
  | nlb (c : Char)

/-- Word-character test on the optional previous character. -/
def isWordOpt : Option Char → Bool
  | none => false
  | some c => pyIsWord c

/-- Word-character test on the head of the remaining input. -/
def isWordHead : List Char → Bool
  | [] => false
  | c :: _ => pyIsWord c

/-- Backtracking matcher in continuation style.  `prev` is the character
just before the current position (for word boundaries and lookbehind);
the continuation receives the updated previous character and the
remaining input, and the first success in Python preference order is
returned (the value is the input remaining after the whole match).
Repetition requires progress per iteration, as Python does for empty
matches.  `fuel` bounds the recursion depth and is chosen large enough
for every invocation in this file. -/
def mtch {α : Type} : Nat → Rgx → Option Char → List Char →
    (Option Char → List Char → Option α) → Option α
  | 0, _, _, _, _ => none
  | Nat.succ f, r, prev, cs, k =>
    match r with
    | .fail => none
    | .eps => k prev cs
    | .anyc =>
      match cs with
      | [] => none
      | c :: rest => if c.toNat = 10 then none else k (some c) rest
    | .lit d =>
      match cs with
      | [] => none
      | c :: rest => if pyLower c = pyLower d then k (some c) rest else none
    | .cls neg items =>
      match cs with
      | [] => none
      | c :: rest => if clsHit neg items c then k (some c) rest else none
    | .seq a b => mtch f a prev cs (fun p2 cs2 => mtch f b p2 cs2 k)
    | .alt a b =>
      match mtch f a prev cs k with
      | some res => some res
      | none => mtch f b prev cs k
    | .star lz a =>
      if lz then
        match k prev cs with
        | some res => some res
        | none =>
          mtch f a prev cs (fun p2 cs2 =>
            if cs2.length < cs.length then mtch f (.star true a) p2 cs2 k
            else none)
      else
        match
          mtch f a prev cs (fun p2 cs2 =>
            if cs2.length < cs.length then mtch f (.star false a) p2 cs2 k
            else none) with
        | some res => some res
        | none => k prev cs
    | .opt lz a =>
      if lz then
        match k prev cs with
        | some res => some res
        | none => mtch f a prev cs k
      else
        match mtch f a prev cs k with
        | some res => some res
        | none => k prev cs
    | .wordB =>
      if isWordOpt prev != isWordHead cs then k prev cs else none
    | .nla a =>
      match mtch f a prev cs (fun _ cs2 => some cs2) with
      | some _ => none
      | none => k prev cs
    | .nlb d =>
      match prev with
      | some p => if pyLower p = pyLower d then none else k prev cs
      | none => k prev cs

/-- Syntactic size of a pattern, used to pick the matcher fuel. -/
def rgxSize : Rgx → Nat
  | .fail => 1
  | .eps => 1
  | .anyc => 1
  | .lit _ => 1
  | .cls _ _ => 1
  | .seq a b => rgxSize a + rgxSize b + 1
  | .alt a b => rgxSize a + rgxSize b + 1
  | .star _ a => rgxSize a + 1
  | .opt _ a => rgxSize a + 1
  | .wordB => 1
  | .nla a => rgxSize a + 1
  | .nlb _ => 1

/-- Fuel that is amply sufficient for the patterns and inputs of this
file: recursion depth is bounded by the pattern size plus a small
multiple of the input length. -/
def mtchFuel (r : Rgx) (len : Nat) : Nat :=
  4096 + rgxSize r + 16 * len

/-- Attempt a match at the current position, returning the previous
character and remaining input after the match chosen by Python. -/
def tryMatchAt (r : Rgx) (prev : Option Char) (cs : List Char) :
    Option (Option Char × List Char) :=
  mtch (mtchFuel r cs.length) r prev cs (fun p2 cs2 => some (p2, cs2))

/-- Scanning loop of `re.sub`: at each position try the pattern; on a
match emit the replacement and continue after it (after one extra copied
character when the match is empty, as Python does); otherwise copy one
character.  The fuel is the input length plus one, which the loop never
exhausts since every step consumes input. -/
def pysubGo : Nat → Rgx → List Char → Option Char → List Char → List Char
  | 0, _, _, _, cs => cs
  | Nat.succ f, r, repl, prev, cs =>
    match tryMatchAt r prev cs with
    | some (p2, rest) =>
      if rest.length < cs.length then repl ++ pysubGo f r repl p2 rest
      else
        match cs with
        | [] => repl
        | c :: cs2 => repl ++ c :: pysubGo f r repl (some c) cs2
    | none =>
      match cs with
      | [] => []
      | c :: cs2 => c :: pysubGo f r repl (some c) cs2

/-- Embedding of `re.sub(pattern, repl, text, flags=re.I)` for the
patterns of the script. -/
def pysub (r : Rgx) (repl : String) (text : String) : String :=
  ⟨pysubGo (text.data.length + 1) r repl.data none text.data⟩

/-- Apostrophe character (code 39). -/
def aposChar : Char := Char.ofNat 39

/-- Double-quote character (code 34). -/
def quoteChar : Char := Char.ofNat 34

/-- Backtick character (code 96). -/
def backtickChar : Char := Char.ofNat 96

/-- Opening curly bracket (code 123). -/
def obraceChar : Char := Char.ofNat 123

/-- Closing curly bracket (code 125). -/
def cbraceChar : Char := Char.ofNat 125

/-- Sequence of literal characters for a string. -/
def rgxStr (s : String) : Rgx := (s.data.map Rgx.lit).foldr Rgx.seq Rgx.eps

/-- Alternation of a list of patterns, preferred left to right. -/
def rgxAlts : List Rgx → Rgx
  | [] => Rgx.fail
  | r :: rs => rs.foldl Rgx.alt r

/-- Concatenation of a list of patterns. -/
def rgxCat (rs : List Rgx) : Rgx := rs.foldr Rgx.seq Rgx.eps

/-- Greedy one-or-more repetition. -/
def plusG (r : Rgx) : Rgx := Rgx.seq r (Rgx.star false r)

/-- Lazy one-or-more repetition. -/
def plusL (r : Rgx) : Rgx := Rgx.seq r (Rgx.star true r)

/-- The top-level-domain alternatives of the URL pattern of `config`,
after the first one.  The pattern in the source is a triple-quoted raw
string wrapped over several lines, so the line breaks and the leading
tab of each continuation line are part of the pattern: every alternative
that ends a source line carries a trailing newline and tab, exactly as
transcribed here (including the stray `Ja` entry of the source). -/
def tldRest : List String := [
  "net", "org", "edu", "gov", "mil", "aero", "asia", "biz", "cat", "coop", "info", "int",
  "jobs", "mobi", "museum", "name", "post", "pro", "tel", "travel", "xxx", "ac", "ad", "ae\n\t",
  "af", "ag", "ai", "al", "am", "an", "ao", "aq", "ar", "as", "at", "au",
  "aw", "ax", "az", "ba", "bb", "bd", "be", "bf", "bg", "bh", "bi", "bj",
  "bm", "bn", "bo", "br", "bs", "bt", "bv", "bw", "by", "bz", "ca", "cc",
  "cd\n\t", "cf", "cg", "ch", "ci", "ck", "cl", "cm", "cn", "co", "cr", "cs",
  "cu", "cv", "cx", "cy", "cz", "dd", "de", "dj", "dk", "dm", "do", "dz",
  "ec", "ee", "eg", "eh", "er", "es", "et", "eu", "fi", "fj", "fk", "fm",
  "fo", "fr\n\t", "ga", "gb", "gd", "ge", "gf", "gg", "gh", "gi", "gl", "gm",
  "gn", "gp", "gq", "gr", "gs", "gt", "gu", "gw", "gy", "hk", "hm", "hn",
  "hr", "ht", "hu", "id", "ie", "il", "im", "in", "io", "iq", "ir", "is",
  "it", "je", "jm\n\t", "jo", "jp", "ke", "kg", "kh", "ki", "km", "kn", "kp",
  "kr", "kw", "ky", "kz", "la", "lb", "lc", "li", "lk", "lr", "ls", "lt",
  "lu", "lv", "ly", "ma", "mc", "md", "me", "mg", "mh", "mk", "ml", "mm",
  "mn", "mo", "mp", "mq\n\t", "mr", "ms", "mt", "mu", "mv", "mw", "mx", "my",
  "mz", "na", "nc", "ne", "nf", "ng", "ni", "nl", "no", "np", "nr", "nu",
  "nz", "om", "pa", "pe", "pf", "pg", "ph", "pk", "pl", "pm", "pn", "pr",
  "ps", "pt", "pw", "py", "qa\n\t", "re", "ro", "rs", "ru", "rw", "sa", "sb",
  "sc", "sd", "se", "sg", "sh", "si", "sj", "Ja", "sk", "sl", "sm", "sn",
  "so", "sr", "ss", "st", "su", "sv", "sx", "sy", "sz", "tc", "td", "tf",
  "tg", "th", "tj", "tk", "tl", "tm\n\t", "tn", "to", "tp", "tr", "tt", "tv",
  "tw", "tz", "ua", "ug", "uk", "us", "uy", "uz", "va", "vc", "ve", "vg",
  "vi", "vn", "vu", "wf", "ws", "ye", "yt", "yu", "za", "zm", "zw"
]

/-- The bracketed top-level-domain group of the URL pattern.  Its first
alternative comes from the wrapped `](` at a line break: a literal
newline, an optional tab, a colon and `com`. -/
def tldGroup : Rgx :=
  Rgx.alt
    (rgxCat [Rgx.lit '\n', Rgx.opt false (Rgx.lit '\t'), Rgx.lit ':', rgxStr "com"])
    (rgxAlts (tldRest.map rgxStr))

/-- The class `[a-z0-9]`. -/
def clsAlnum : List ClsItem := [.rng 'a' 'z', .rng '0' '9']

/-- The scheme branch `https?:(?:/\x7b1,3\x7d|[a-z0-9%])`. -/
def schemeBranch : Rgx :=
  rgxCat [rgxStr "http", Rgx.opt false (Rgx.lit 's'), Rgx.lit ':',
    Rgx.alt
      (rgxCat [Rgx.lit '/', Rgx.opt false (Rgx.lit '/'), Rgx.opt false (Rgx.lit '/')])
      (Rgx.cls false [.rng 'a' 'z', .rng '0' '9', .ch '%'])]

/-- The dotted-domain branch `[a-z0-9.\-]+[.](TLD)/` of the first
top-level alternative (the closing `/` is the literal that follows the
wrapped group in the source). -/
def dottedDomainBranch : Rgx :=
  rgxCat [plusG (Rgx.cls false [.rng 'a' 'z', .rng '0' '9', .ch '.', .ch '-']),
    Rgx.lit '.', tldGroup, Rgx.lit '/']

/-- Path chunk `[^\s()<>\x7b\x7d\[\]]+`. -/
def pathChunk : Rgx :=
  plusG (Rgx.cls true [.spc, .ch '(', .ch ')', .ch '<', .ch '>',
    .ch obraceChar, .ch cbraceChar, .ch '[', .ch ']'])

/-- The first parenthesised path alternative.  In the source the inner
class is wrapped over a line break, so it reads `[\n\t^\s()]*?`: a
positive class holding newline, tab, caret, whitespace and parentheses. -/
def parenNested : Rgx :=
  rgxCat [Rgx.lit '(',
    Rgx.star true (Rgx.cls false [.ch '\n', .ch '\t', .ch '^', .spc, .ch '(', .ch ')']),
    Rgx.lit '(', plusG (Rgx.cls true [.spc, .ch '(', .ch ')']), Rgx.lit ')',
    Rgx.star true (Rgx.cls true [.spc, .ch '(', .ch ')']), Rgx.lit ')']

/-- The unwrapped nested-parentheses alternative
`\([^\s()]*?\([^\s()]+\)[^\s()]*?\)` used in the final group. -/
def parenNestedPlain : Rgx :=
  rgxCat [Rgx.lit '(',
    Rgx.star true (Rgx.cls true [.spc, .ch '(', .ch ')']),
    Rgx.lit '(', plusG (Rgx.cls true [.spc, .ch '(', .ch ')']), Rgx.lit ')',
    Rgx.star true (Rgx.cls true [.spc, .ch '(', .ch ')']), Rgx.lit ')']

/-- The simple parenthesised alternative `\([^\s]+?\)`. -/
def parenSimple : Rgx :=
  rgxCat [Rgx.lit '(', plusL (Rgx.cls true [.spc]), Rgx.lit ')']

/-- The final-character class of the URL pattern; the source class is
wrapped over a line break, so it also excludes newline and tab. -/
def lastCls : Rgx :=
  Rgx.cls true [.spc, .ch backtickChar, .ch '!', .ch '(', .ch ')', .ch '[',
    .ch ']', .ch obraceChar, .ch '\n', .ch '\t', .ch cbraceChar, .ch ';',
    .ch ':', .ch aposChar, .ch quoteChar, .ch '.', .ch ',', .ch '<',
    .ch '>', .ch '?', .ch '«', .ch '»', .ch '“', .ch '”', .ch '‘', .ch '’']

/-- First top-level alternative of the URL pattern: scheme or dotted
domain, one or more path pieces, then the final-piece group. -/
def urlFirstAlt : Rgx :=
  rgxCat [Rgx.alt schemeBranch dottedDomainBranch,
    plusG (rgxAlts [pathChunk, parenNested, parenSimple]),
    rgxAlts [parenNestedPlain, parenSimple, lastCls]]

/-- Second top-level alternative of the URL pattern: bare domain with
lookarounds, `(?<!@)[a-z0-9]+(?:[.\-][a-z0-9]+)*[.](TLD)\b/?(?!@)`. -/
def urlSecondAlt : Rgx :=
  rgxCat [Rgx.nlb '@', plusG (Rgx.cls false clsAlnum),
    Rgx.star false (rgxCat [Rgx.cls false [.ch '.', .ch '-'], plusG (Rgx.cls false clsAlnum)]),
    Rgx.lit '.', tldGroup, Rgx.wordB, Rgx.opt false (Rgx.lit '/'), Rgx.nla (Rgx.lit '@')]

/-- Embedding of `config[url_pattern]`: `(?i)\b(ALT1|ALT2)` with the two
alternatives above; the `(?i)` prefix is realised by the matcher being
case-insensitive. -/
def url_pattern : Rgx := rgxCat [Rgx.wordB, Rgx.alt urlFirstAlt urlSecondAlt]

/-- The digit class `\d`. -/
def digitC : Rgx := Rgx.cls false [.dig]

/-- `\d\x7b3\x7d`: exactly three digits. -/
def digit3 : Rgx := rgxCat [digitC, digitC, digitC]

/-- `\d\x7b1,3\x7d`: one, two or three digits, greedy. -/
def digit13 : Rgx := rgxCat [digitC, Rgx.opt false digitC, Rgx.opt false digitC]

/-- Embedding of `config[latex_patterns]`: the block form `\\\[(?:.+?)\\\]`,
the inline form `\\\((?:.+?)\\\)` and the fraction macro
`\\frac\x7b[\w\d_]+\x7d\x7b[\w\d_]+\x7d`, in source order. -/
def latex_patterns : List Rgx :=
  [rgxCat [Rgx.lit '\\', Rgx.lit '[', plusL Rgx.anyc, Rgx.lit '\\', Rgx.lit ']'],
   rgxCat [Rgx.lit '\\', Rgx.lit '(', plusL Rgx.anyc, Rgx.lit '\\', Rgx.lit ')'],
   rgxCat [Rgx.lit '\\', rgxStr "frac",
     Rgx.lit obraceChar, plusG (Rgx.cls false [.wrd, .dig, .ch '_']), Rgx.lit cbraceChar,
     Rgx.lit obraceChar, plusG (Rgx.cls false [.wrd, .dig, .ch '_']), Rgx.lit cbraceChar]]

/-- Embedding of `config[numerical_patterns]`: the percentage pattern
`(\d+(?:,\d+)?%)` and the number pattern `(\d+(?:.\d\x7b3\x7d)?(?:,\d+)?)`
(note the unescaped dot of the source, which matches any character), in
source order. -/
def numerical_patterns : List Rgx :=
  [rgxCat [plusG digitC, Rgx.opt false (rgxCat [Rgx.lit ',', plusG digitC]), Rgx.lit '%'],
   rgxCat [plusG digitC, Rgx.opt false (rgxCat [Rgx.anyc, digit3]),
     Rgx.opt false (rgxCat [Rgx.lit ',', plusG digitC])]]

/-- Embedding of `config[currency_patterns]`:
`r\$\s?\d\x7b1,3\x7d(?:\.\d\x7b3\x7d)*(?:,\d+)`. -/
def currency_patterns : List Rgx :=
  [rgxCat [Rgx.lit 'r', Rgx.lit '$', Rgx.opt false (Rgx.cls false [.spc]),
    digit13, Rgx.star false (rgxCat [Rgx.lit '.', digit3]),
    rgxCat [Rgx.lit ',', plusG digitC]]]

/-- Embedding of `replace_by_patterns`: fold the substitutions over the
pattern list in order. -/
def replace_by_patterns (patterns : List Rgx) (replace : String) (text : String) : String :=
  patterns.foldl (fun t p => pysub p replace t) text

/-- State-machine form of `re.sub(r"\s+", " ", text)`: the flag records
whether the scanner is inside a whitespace run. -/
def cwGo : Bool → List Char → List Char
  | _, [] => []
  | inRun, c :: cs =>
    if pyIsSpace c then
      (if inRun then cwGo true cs else ' ' :: cwGo true cs)
    else c :: cwGo false cs

/-- Collapse every whitespace run to a single space, embedding
`re.sub(r"\s+", " ", text)`. -/
def collapseWs (l : List Char) : List Char := cwGo false l

/-- Remove trailing whitespace. -/
def stripRight : List Char → List Char
  | [] => []
  | c :: cs =>
    match stripRight cs with
    | [] => if pyIsSpace c then [] else [c]
    | d :: ds => c :: d :: ds

/-- Python `str.strip`: drop leading and trailing whitespace. -/
def pyStrip (l : List Char) : List Char := stripRight (l.dropWhile pyIsSpace)

/-- Python `str.strip` on strings. -/
def pyStripS (s : String) : String := ⟨pyStrip s.data⟩

/-- String form of the whitespace collapse. -/
def wsCollapse (s : String) : String := ⟨collapseWs s.data⟩

/-- A text node as delivered by BeautifulSoup `findAll(text=True)`: its
textual content, the tag name of its parent element, and whether the
node is a markup comment.  `text_from_html` receives the parsed form of
the HTML input, the parser itself being the external library. -/
structure HtmlNode where
  parentName : String
  isComment : Bool
  text : String

/-- Embedding of `tag_visible`: a node is not renderable when its parent
is one of the non-rendering containers or when it is a comment. -/
def tag_visible (e : HtmlNode) : Bool :=
  if e.parentName ∈ ["style", "script", "head", "title", "meta", "[document]"] then
    false
  else if e.isComment then false
  else true

/-- Embedding of `text_from_html`: the stripped text of every text node
of the soup, joined by single spaces.  The source joins all nodes
returned by `findAll(text=True)`; `tag_visible` is not applied. -/
def text_from_html (nodes : List HtmlNode) : String :=
  " ".intercalate (nodes.map fun e => pyStripS e.text)

/-- Embedding of `clean_enunciado`: extract the text, lowercase it,
apply the URL, LaTeX, currency and numeric substitutions, collapse
whitespace and strip. -/
def clean_enunciado (html : List HtmlNode) : String :=
  let text := text_from_html html
  let text := replace_by_patterns [url_pattern] "" (strLower text)
  let text := replace_by_patterns latex_patterns " latex " text
  let text := replace_by_patterns currency_patterns " BRL " text
  let text := replace_by_patterns numerical_patterns " número " text
  let text := wsCollapse text
  pyStripS text

/-- The five-stage normalisation pipeline exactly as the specification
orders it: URL removal, LaTeX substitution, currency substitution,
numeric substitution, then whitespace collapse with trim, each stage a
global case-insensitive substitution completed over the whole text
before the next begins, over the lowercased extracted text. -/
def specNormalisationPipeline (html : List HtmlNode) : String :=
  pyStripS (wsCollapse
    (replace_by_patterns numerical_patterns " número "
      (replace_by_patterns currency_patterns " BRL "
        (replace_by_patterns latex_patterns " latex "
          (replace_by_patterns [url_pattern] ""
            (strLower (text_from_html html)))))))

/-- Hexadecimal digit character, lowercase. -/
def hexDigitCh (n : Nat) : Char :=
  if n < 10 then Char.ofNat (48 + n) else Char.ofNat (87 + n)

/-- Embedding of `c.encode(unicode-escape)` on one character: printable
ASCII is itself, the backslash doubles, tab, newline and carriage return
use their letter escapes, other characters below 256 use a two-digit
hex escape, characters below 65536 a four-digit one, and the rest an
eight-digit one, with lowercase hex digits throughout. -/
def pyUnicodeEscape (c : Char) : String :=
  let n := c.toNat
  if n = 92 then ⟨['\\', '\\']⟩
  else if n = 9 then "\\t"
  else if n = 10 then "\\n"
  else if n = 13 then "\\r"
  else if 32 ≤ n ∧ n ≤ 126 then String.singleton c
  else if n < 256 then ⟨['\\', 'x', hexDigitCh (n / 16 % 16), hexDigitCh (n % 16)]⟩
  else if n < 65536 then
    ⟨['\\', 'u', hexDigitCh (n / 4096 % 16), hexDigitCh (n / 256 % 16),
      hexDigitCh (n / 16 % 16), hexDigitCh (n % 16)]⟩
  else
    ⟨['\\', 'U', hexDigitCh (n / 0x10000000 % 16), hexDigitCh (n / 0x1000000 % 16),
      hexDigitCh (n / 0x100000 % 16), hexDigitCh (n / 0x10000 % 16),
      hexDigitCh (n / 4096 % 16), hexDigitCh (n / 256 % 16),
      hexDigitCh (n / 16 % 16), hexDigitCh (n % 16)]⟩

/-- Embedding of the `to_replace` dictionary: the keys are the
unicode-escape byte strings of the source (note the `\2212` entry of
the source, whose key lacks the `u` and therefore never matches any
character escape), the values the replacement strings. -/
def to_replace : List (String × String) := [
  ("\\u0131", "i"),
  ("\\u0155", "r"),
  ("\\u03b1", " alfa "),
  ("@", " arroba "),
  ("#", " cerquilha "),
  ("\\u2206", " delta "),
  ("$", " dólar "),
  ("\\xb0", " graus "),
  ("\\u221e", " infinito "),
  ("\\u0142", " libra "),
  ("\\u2113", " litro "),
  ("\\u03c9", " ohm "),
  ("\\xb2", " ao quadrado "),
  ("\\xb3", " ao cubo "),
  ("\\u221a", " raiz quadrada "),
  ("+", " mais "),
  ("\\2212", " menos "),
  ("\\xd7", " multiplicação "),
  ("=", " igual "),
  ("\\u2264", " menor ou igual "),
  ("\\u2265", " maior ou igual que "),
  ("\\u22c5", " "),
  ("\\u2219", " "),
  ("\\xb7", " "),
  (">", " maior que "),
  ("\\u03c0", " pi "),
  ("\\xf7", " divisão "),
  ("<", " menor que "),
  ("/", " "),
  ("\\\\", " "),
  ("|", " "),
  ("\\u2192", " "),
  ("\\u2013", " "),
  (String.singleton aposChar, " "),
  ("\\u2019", " "),
  ("\\u2018", " "),
  (String.singleton quoteChar, " "),
  ("\\u201c", " "),
  ("\\u201d", " "),
  ("\\xb4", " "),
  (String.singleton backtickChar, " "),
  ("^", " "),
  ("&", " "),
  (";", ". "),
  ("_", " "),
  ("\\u2026", " ")]

/-- Membership in the allow-listed class
`[\w\dáéíóúàèìòùâêîôûãẽĩõũç]` under `re.I`: a Python word character, or
one of the listed accented letters (directly or after lowercasing). -/
def allowedClassChar (c : Char) : Bool :=
  pyIsWord c || pyIsDigit c ||
  "áéíóúàèìòùâêîôûãẽĩõũç".data.contains c ||
  "áéíóúàèìòùâêîôûãẽĩõũç".data.contains (pyLower c)

/-- The distinct characters of the text left after deleting every
allow-listed character, embedding
`set(re.sub(r"[\w\d...ç]", "", text, flags=re.I))`.  Python iterates a
set in unspecified order; this embedding fixes one order, and every
theorem below is order-independent. -/
def specialsOf (l : List Char) : List Char :=
  (l.filter fun c => !allowedClassChar c).dedup

/-- Python `text.replace(c, r)` for a single-character needle. -/
def replaceChar (c : Char) (r : List Char) : List Char → List Char
  | [] => []
  | x :: xs =>
    if x = c then r ++ replaceChar c r xs else x :: replaceChar c r xs

/-- The replacement loop of `remove_special_chars`: for each collected
special character whose unicode-escape form is a key of `to_replace`,
replace all of its occurrences; other characters are left alone. -/
def applyReplacements : List Char → List Char → List Char
  | [], text => text
  | c :: cs, text =>
    applyReplacements cs
      (match List.lookup (pyUnicodeEscape c) to_replace with
       | some r => replaceChar c r.data text
       | none => text)

/-- Embedding of `remove_special_chars`: collect the special characters,
replace the ones with a table entry, collapse whitespace and strip. -/
def remove_special_chars (text : String) : String :=
  let caracteres := specialsOf text.data
  let t := applyReplacements caracteres text.data
  ⟨pyStrip (collapseWs t)⟩

/-- The statement separator of the dataset file. -/
def statementDelim : String := "#!#!#"

/-- The separator between identifier and markup inside one block. -/
def idDelim : String := "#;#;#"

/-- Test that the second list starts with the first. -/
def leadsWith : List Char → List Char → Bool
  | [], _ => true
  | _ :: _, [] => false
  | a :: as, b :: bs => a = b && leadsWith as bs

/-- Python `str.split(sep)` for a non-empty separator, on character
lists: split at every non-overlapping occurrence, scanning left to
right.  The fuel argument is the list length plus one, which the
recursion never exhausts. -/
def pySplitList (sep : List Char) : Nat → List Char → List (List Char)
  | 0, cs => [cs]
  | _ + 1, [] => [[]]
  | f + 1, c :: rest =>
    if leadsWith sep (c :: rest) then
      [] :: pySplitList sep f (List.drop sep.length (c :: rest))
    else
      match pySplitList sep f rest with
      | [] => [[c]]
      | s :: ss => (c :: s) :: ss

/-- Python `str.split(sep)` on strings. -/
def pySplitS (sep s : String) : List String :=
  (pySplitList sep.data (s.data.length + 1) s.data).map fun l => ⟨l⟩

/-- Embedding of the per-block control flow of the driver loop: a block
that is blank after stripping is skipped; otherwise
`id_questao, enunciado = q.split(idDelim)` succeeds only when the split
has exactly two parts, and raises `ValueError` otherwise; on success
the identifier is stripped. -/
def processBlock (q : String) : Except String (Option (String × String)) :=
  if 0 < (pyStripS q).length then
    match pySplitS idDelim q with
    | [idq, enun] => Except.ok (some (pyStripS idq, enun))
    | _ => Except.error "ValueError"
  else Except.ok none

/-- The path tested by the driver before processing a statement:
`f-string download_dir/id_questao.csv`. -/
def artifactCheckPath (downloadDir idq : String) : String :=
  downloadDir ++ "/" ++ idq ++ ".csv"

/-- The path produced by the rename after the download:
`rename_downloaded_file(download_dir/data.csv, download_dir/id_questao)`. -/
def renameTargetPath (downloadDir idq : String) : String :=
  downloadDir ++ "/" ++ idq

/-- Driver state for the resume model: the set of file paths on disk and
the number of submissions performed. -/
structure DriverState where
  files : List String
  submissions : Nat

/-- One driver iteration for one statement id: if the artifact-check
path exists the statement is skipped; otherwise the text artifact is
written, the statement is submitted, and the downloaded metrics file is
renamed to the rename-target path. -/
def processStatement (downloadDir txtDir idq : String) (st : DriverState) : DriverState :=
  if artifactCheckPath downloadDir idq ∈ st.files then st
  else
    { files := renameTargetPath downloadDir idq ::
        (txtDir ++ "/" ++ idq ++ ".txt") :: st.files,
      submissions := st.submissions + 1 }

/-- A character has an entry in the transliteration table when its
unicode-escape form is one of the keys. -/
def hasEntry (c : Char) : Bool :=
  (List.lookup (pyUnicodeEscape c) to_replace).isSome

/-- All characters occurring in the replacement values of the table. -/
def valuesChars : List Char :=
  to_replace.flatMap fun p => p.2.data

/-- Invariant of collapsed text, relative to the scanner state: every
whitespace character is a single space and never follows another space
(when the state records a running space, the text must not start with
one). -/
def cwClean : Bool → List Char → Bool
  | _, [] => true
  | b, c :: cs =>
    if pyIsSpace c then (c == ' ' && !b && cwClean true cs)
    else cwClean false cs

/-!
Theorems.  Each claim of the specification review is settled by exactly
one theorem below, with counterexamples and witnesses as separate
closed theorems.
-/



theorem mtch_calls_on_suffix {α : Type} :
    ∀ (fuel : Nat) (r : Rgx) (prev : Option Char) (cs : List Char)
      (k : Option Char → List Char → Option α) (res : α),
      mtch fuel r prev cs k = some res →
      ∃ p2 cs2, cs2 <:+ cs ∧ k p2 cs2 = some res := by
  intro fuel
  induction fuel with
  | zero => intro r prev cs k res h; simp [mtch] at h
  | succ f ih =>
    intro r prev cs k res h
    cases r with
    | fail => simp [mtch] at h
    | eps => exact ⟨prev, cs, List.suffix_refl cs, h⟩
    | anyc =>
      cases cs with
      | nil => simp [mtch] at h
      | cons c rest =>
        simp only [mtch] at h
        split at h
        · exact absurd h (by simp)
        · exact ⟨some c, rest, List.suffix_cons c rest, h⟩
    | lit d =>
      cases cs with
      | nil => simp [mtch] at h
      | cons c rest =>
        simp only [mtch] at h
        split at h
        · exact ⟨some c, rest, List.suffix_cons c rest, h⟩
        · exact absurd h (by simp)
    | cls neg items =>
      cases cs with
      | nil => simp [mtch] at h
      | cons c rest =>
        simp only [mtch] at h
        split at h
        · exact ⟨some c, rest, List.suffix_cons c rest, h⟩
        · exact absurd h (by simp)
    | seq a b =>
      simp only [mtch] at h
      obtain ⟨p2, cs2, hs2, h2⟩ := ih a prev cs _ res h
      obtain ⟨p3, cs3, hs3, h3⟩ := ih b p2 cs2 k res h2
      exact ⟨p3, cs3, hs3.trans hs2, h3⟩
    | alt a b =>
      simp only [mtch] at h
      cases hma : mtch f a prev cs k with
      | some r2 =>
        rw [hma] at h
        obtain ⟨p2, cs2, hs2, h2⟩ := ih a prev cs k r2 hma
        exact ⟨p2, cs2, hs2, by rw [h2]; exact h⟩
      | none =>
        rw [hma] at h
        exact ih b prev cs k res h
    | star lz a =>
      simp only [mtch] at h
      cases lz with
      | true =>
        simp only [if_true] at h
        cases hk : k prev cs with
        | some r2 => rw [hk] at h; exact ⟨prev, cs, List.suffix_refl cs, by rw [hk]; exact h⟩
        | none =>
          rw [hk] at h
          obtain ⟨p2, cs2, hs2, h2⟩ := ih a prev cs _ res h
          split at h2
          · obtain ⟨p3, cs3, hs3, h3⟩ := ih (.star true a) p2 cs2 k res h2
            exact ⟨p3, cs3, hs3.trans hs2, h3⟩
          · exact absurd h2 (by simp)
      | false =>
        simp only [if_false, Bool.false_eq_true] at h
        cases hma : mtch f a prev cs
            (fun p2 cs2 => if cs2.length < cs.length then mtch f (.star false a) p2 cs2 k else none) with
        | some r2 =>
          rw [hma] at h
          obtain ⟨p2, cs2, hs2, h2⟩ := ih a prev cs _ r2 hma
          split at h2
          · obtain ⟨p3, cs3, hs3, h3⟩ := ih (.star false a) p2 cs2 k r2 h2
            exact ⟨p3, cs3, hs3.trans hs2, by rw [h3]; exact h⟩
          · exact absurd h2 (by simp)
        | none =>
          rw [hma] at h
          exact ⟨prev, cs, List.suffix_refl cs, h⟩
    | opt lz a =>
      simp only [mtch] at h
      cases lz with
      | true =>
        simp only [if_true] at h
        cases hk : k prev cs with
        | some r2 => rw [hk] at h; exact ⟨prev, cs, List.suffix_refl cs, by rw [hk]; exact h⟩
        | none => rw [hk] at h; exact ih a prev cs k res h
      | false =>
        simp only [if_false, Bool.false_eq_true] at h
        cases hma : mtch f a prev cs k with
        | some r2 =>
          rw [hma] at h
          obtain ⟨p2, cs2, hs2, h2⟩ := ih a prev cs k r2 hma
          exact ⟨p2, cs2, hs2, by rw [h2]; exact h⟩
        | none => rw [hma] at h; exact ⟨prev, cs, List.suffix_refl cs, h⟩
    | wordB =>
      simp only [mtch] at h
      split at h
      · exact ⟨prev, cs, List.suffix_refl cs, h⟩
      · exact absurd h (by simp)
    | nla a =>
      simp only [mtch] at h
      cases hma : mtch f a prev cs (fun _ cs2 => some cs2) with
      | some r2 => rw [hma] at h; exact absurd h (by simp)
      | none => rw [hma] at h; exact ⟨prev, cs, List.suffix_refl cs, h⟩
    | nlb d =>
      cases prev with
      | none => exact ⟨none, cs, List.suffix_refl cs, h⟩
      | some p =>
        simp only [mtch] at h
        by_cases hc : pyLower p = pyLower d
        · rw [if_pos hc] at h; exact absurd h (by simp)
        · rw [if_neg hc] at h; exact ⟨some p, cs, List.suffix_refl cs, h⟩

theorem tryMatchAt_suffix (r : Rgx) (prev : Option Char) (cs : List Char)
    (p2 : Option Char) (rest : List Char)
    (h : tryMatchAt r prev cs = some (p2, rest)) : rest <:+ cs := by
  obtain ⟨p3, cs3, hs, hk⟩ := mtch_calls_on_suffix _ _ _ _ _ _ h
  obtain ⟨rfl, rfl⟩ : p3 = p2 ∧ cs3 = rest := by
    have := hk
    simp only [Option.some_inj, Prod.mk.injEq] at this
    exact this
  exact hs

theorem pysubGo_succ (f : Nat) (r : Rgx) (repl : List Char) (prev : Option Char) (cs : List Char) :
    pysubGo (Nat.succ f) r repl prev cs =
      (match tryMatchAt r prev cs with
       | some (p2, rest) =>
         if rest.length < cs.length then repl ++ pysubGo f r repl p2 rest
         else match cs with
           | [] => repl
           | c :: cs2 => repl ++ c :: pysubGo f r repl (some c) cs2
       | none => match cs with
         | [] => []
         | c :: cs2 => c :: pysubGo f r repl (some c) cs2) := rfl

theorem mem_pysubGo (x : Char) :
    ∀ (f : Nat) (r : Rgx) (repl : List Char) (prev : Option Char) (cs : List Char),
      x ∈ pysubGo f r repl prev cs → x ∈ cs ∨ x ∈ repl := by
  intro f
  induction f with
  | zero => intro r repl prev cs h; exact Or.inl (by simpa [pysubGo] using h)
  | succ f ih =>
    intro r repl prev cs h
    rw [pysubGo_succ] at h
    cases htm : tryMatchAt r prev cs with
    | some pr =>
      obtain ⟨p2, rest⟩ := pr
      rw [htm] at h
      simp only at h
      split at h
      · rcases List.mem_append.mp h with h2 | h2
        · exact Or.inr h2
        · rcases ih r repl p2 rest h2 with h3 | h3
          · exact Or.inl ((tryMatchAt_suffix r prev cs p2 rest htm).subset h3)
          · exact Or.inr h3
      · cases cs with
        | nil => exact Or.inr h
        | cons c cs2 =>
          rcases List.mem_append.mp h with h2 | h2
          · exact Or.inr h2
          · rcases List.mem_cons.mp h2 with h3 | h3
            · exact Or.inl (h3 ▸ List.mem_cons_self c cs2)
            · rcases ih r repl (some c) cs2 h3 with h4 | h4
              · exact Or.inl (List.mem_cons_of_mem c h4)
              · exact Or.inr h4
    | none =>
      rw [htm] at h
      cases cs with
      | nil => simp at h
      | cons c cs2 =>
        rcases List.mem_cons.mp h with h3 | h3
        · exact Or.inl (h3 ▸ List.mem_cons_self c cs2)
        · rcases ih r repl (some c) cs2 h3 with h4 | h4
          · exact Or.inl (List.mem_cons_of_mem c h4)
          · exact Or.inr h4

theorem mem_pysub (x : Char) (r : Rgx) (repl t : String)
    (h : x ∈ (pysub r repl t).data) : x ∈ t.data ∨ x ∈ repl.data :=
  mem_pysubGo x _ r repl.data none t.data h

theorem mem_replace_by_patterns (x : Char) (repl : String) :
    ∀ (ps : List Rgx) (t : String),
      x ∈ (replace_by_patterns ps repl t).data → x ∈ t.data ∨ x ∈ repl.data := by
  intro ps
  induction ps with
  | nil => intro t h; exact Or.inl h
  | cons p ps ih =>
    intro t h
    have h2 : x ∈ (replace_by_patterns ps repl (pysub p repl t)).data := h
    rcases ih (pysub p repl t) h2 with h3 | h3
    · exact mem_pysub x p repl t h3
    · exact Or.inr h3

theorem mem_cwGo (x : Char) :
    ∀ (l : List Char) (b : Bool), x ∈ cwGo b l → x ∈ l ∨ x = ' ' := by
  intro l
  induction l with
  | nil => intro b h; simp [cwGo] at h
  | cons c cs ih =>
    intro b h
    rw [cwGo] at h
    split at h
    · split at h
      · rcases ih true h with h2 | h2
        · exact Or.inl (List.mem_cons_of_mem c h2)
        · exact Or.inr h2
      · rcases List.mem_cons.mp h with h2 | h2
        · exact Or.inr h2
        · rcases ih true h2 with h3 | h3
          · exact Or.inl (List.mem_cons_of_mem c h3)
          · exact Or.inr h3
    · rcases List.mem_cons.mp h with h2 | h2
      · exact Or.inl (h2 ▸ List.mem_cons_self c cs)
      · rcases ih false h2 with h3 | h3
        · exact Or.inl (List.mem_cons_of_mem c h3)
        · exact Or.inr h3

theorem mem_stripRight (x : Char) :
    ∀ (l : List Char), x ∈ stripRight l → x ∈ l := by
  intro l
  induction l with
  | nil => intro h; simp [stripRight] at h
  | cons c cs ih =>
    intro h
    rw [stripRight] at h
    cases hsr : stripRight cs with
    | nil =>
      rw [hsr] at h
      split at h <;> simp_all
    | cons d ds =>
      rw [hsr] at h
      rcases List.mem_cons.mp h with h2 | h2
      · exact h2 ▸ List.mem_cons_self c cs
      · exact List.mem_cons_of_mem c (ih (hsr ▸ h2))

theorem mem_pyStrip (x : Char) (l : List Char) (h : x ∈ pyStrip l) : x ∈ l := by
  have h2 := mem_stripRight x _ h
  exact List.dropWhile_subset pyIsSpace h2

theorem mkChar_toNat (n : Nat) (h : n < 55296) : (mkChar n h).toNat = n := rfl

theorem isUpperLetter_pyLower (c : Char) : isUpperLetter (pyLower c) = false := by
  simp only [pyLower]
  split
  · rename_i h
    simp only [isUpperLetter, mkChar_toNat, Bool.or_eq_false_iff, Bool.and_eq_false_iff,
      decide_eq_false_iff_not, not_le, ne_eq, Decidable.not_not]
    omega
  · rename_i h
    push_neg at h
    simp only [isUpperLetter, Bool.or_eq_false_iff, Bool.and_eq_false_iff,
      decide_eq_false_iff_not, not_le, ne_eq, Decidable.not_not]
    omega

theorem not_upper_strLower (s : String) (x : Char) (hx : x ∈ (strLower s).data) :
    isUpperLetter x = false := by
  simp only [strLower] at hx
  obtain ⟨c, _, rfl⟩ := List.mem_map.mp hx
  exact isUpperLetter_pyLower c

theorem lookup_mem_pairs : ∀ (l : List (String × String)) (k r : String),
    List.lookup k l = some r → (k, r) ∈ l := by
  intro l
  induction l with
  | nil => intro k r h; simp [List.lookup] at h
  | cons p ps ih =>
    intro k r h
    obtain ⟨k1, v1⟩ := p
    rw [List.lookup] at h
    split at h
    · rename_i hbeq
      have hk : k = k1 := eq_of_beq hbeq
      have hv : v1 = r := by simpa using h
      subst hv
      subst hk
      exact List.mem_cons_self _ _
    · exact List.mem_cons_of_mem _ (ih k r h)

theorem table_values_no_entry : ∀ p ∈ to_replace, ∀ x ∈ p.2.data, hasEntry x = false := by
  decide

theorem hasEntry_space : hasEntry ' ' = false := by decide

theorem mem_replaceChar (x c : Char) (r : List Char) :
    ∀ l : List Char, x ∈ replaceChar c r l → (x ∈ l ∧ x ≠ c) ∨ x ∈ r := by
  intro l
  induction l with
  | nil => intro h; simp [replaceChar] at h
  | cons y ys ih =>
    intro h
    rw [replaceChar] at h
    split at h
    · rcases List.mem_append.mp h with h2 | h2
      · exact Or.inr h2
      · rcases ih h2 with ⟨h3, h4⟩ | h3
        · exact Or.inl ⟨List.mem_cons_of_mem y h3, h4⟩
        · exact Or.inr h3
    · rename_i hy
      rcases List.mem_cons.mp h with h2 | h2
      · subst h2
        exact Or.inl ⟨List.mem_cons_self x ys, fun hc => hy (hc ▸ rfl)⟩
      · rcases ih h2 with ⟨h3, h4⟩ | h3
        · exact Or.inl ⟨List.mem_cons_of_mem y h3, h4⟩
        · exact Or.inr h3

theorem not_mem_replaceChar (c : Char) (r l : List Char) (hr : c ∉ r) :
    c ∉ replaceChar c r l := by
  intro h
  rcases mem_replaceChar c c r l h with ⟨_, h2⟩ | h2
  · exact h2 rfl
  · exact hr h2

theorem applyReplacements_not_mem (x : Char) (hx : hasEntry x = true) :
    ∀ (cars text : List Char), x ∉ text → x ∉ applyReplacements cars text := by
  intro cars
  induction cars with
  | nil => intro text h; exact h
  | cons c cs ih =>
    intro text h
    rw [applyReplacements]
    cases hl : List.lookup (pyUnicodeEscape c) to_replace with
    | none => exact ih text h
    | some r =>
      apply ih
      intro hmem
      rcases mem_replaceChar x c r.data text hmem with ⟨h2, _⟩ | h2
      · exact h h2
      · have hp := lookup_mem_pairs _ _ _ hl
        have := table_values_no_entry _ hp x h2
        rw [this] at hx
        exact absurd hx (by simp)

theorem applyReplacements_kills (x : Char) (hx : hasEntry x = true) :
    ∀ (cars text : List Char), x ∈ cars → x ∉ applyReplacements cars text := by
  intro cars
  induction cars with
  | nil => intro text h; simp at h
  | cons c cs ih =>
    intro text hmem
    by_cases hxc : x = c
    · subst hxc
      rw [applyReplacements]
      obtain ⟨r, hr⟩ : ∃ r, List.lookup (pyUnicodeEscape x) to_replace = some r := by
        cases hl : List.lookup (pyUnicodeEscape x) to_replace with
        | none => rw [hasEntry, hl] at hx; simp at hx
        | some r => exact ⟨r, rfl⟩
      rw [hr]
      apply applyReplacements_not_mem x hx cs
      apply not_mem_replaceChar
      intro hmem2
      have hp := lookup_mem_pairs _ _ _ hr
      have := table_values_no_entry _ hp x hmem2
      rw [this] at hx
      exact absurd hx (by simp)
    · rcases List.mem_cons.mp hmem with h2 | h2
      · exact absurd h2 hxc
      · rw [applyReplacements]
        exact ih _ h2

theorem applyReplacements_id : ∀ (cars text : List Char),
    (∀ c ∈ cars, hasEntry c = false) → applyReplacements cars text = text := by
  intro cars
  induction cars with
  | nil => intro text _; rfl
  | cons c cs ih =>
    intro text h
    rw [applyReplacements]
    have hc : hasEntry c = false := h c (List.mem_cons_self c cs)
    have hl : List.lookup (pyUnicodeEscape c) to_replace = none := by
      rw [hasEntry] at hc
      exact Option.not_isSome_iff_eq_none.mp (by simp [hc])
    rw [hl]
    exact ih text fun d hd => h d (List.mem_cons_of_mem c hd)

theorem cwClean_cwGo : ∀ (l : List Char) (b : Bool), cwClean b (cwGo b l) = true := by
  intro l
  induction l with
  | nil => intro b; rfl
  | cons c cs ih =>
    intro b
    rw [cwGo]
    by_cases hsp : pyIsSpace c = true
    · rw [if_pos hsp]
      cases b
      · rw [if_neg (by simp)]
        rw [cwClean, if_pos (by decide)]
        simpa using ih true
      · rw [if_pos rfl]
        exact ih true
    · rw [if_neg hsp, cwClean, if_neg hsp]
      exact ih false

theorem cwGo_fix : ∀ (l : List Char) (b : Bool), cwClean b l = true → cwGo b l = l := by
  intro l
  induction l with
  | nil => intro b _; rfl
  | cons c cs ih =>
    intro b h
    rw [cwClean] at h
    rw [cwGo]
    by_cases hsp : pyIsSpace c = true
    · rw [if_pos hsp] at h ⊢
      simp only [Bool.and_eq_true, beq_iff_eq, Bool.not_eq_true'] at h
      obtain ⟨⟨hc, hb⟩, h3⟩ := h
      subst hb
      rw [if_neg (by simp)]
      rw [ih true h3, hc]
    · rw [if_neg hsp] at h ⊢
      rw [ih false h]

theorem cwClean_dropWhile (l : List Char) (h : cwClean false l = true) :
    cwClean false (l.dropWhile pyIsSpace) = true := by
  cases l with
  | nil => exact h
  | cons c cs =>
    by_cases hsp : pyIsSpace c = true
    · rw [List.dropWhile_cons, if_pos hsp]
      rw [cwClean, if_pos hsp] at h
      simp only [Bool.and_eq_true, beq_iff_eq, Bool.not_eq_true'] at h
      obtain ⟨⟨hc, _⟩, hcs⟩ := h
      cases cs with
      | nil => rfl
      | cons d ds =>
        by_cases hd : pyIsSpace d = true
        · rw [cwClean, if_pos hd] at hcs
          simp at hcs
        · rw [List.dropWhile_cons, if_neg hd]
          rw [cwClean, if_neg hd] at hcs
          rw [cwClean, if_neg hd]
          exact hcs
    · rw [List.dropWhile_cons, if_neg hsp]
      exact h

theorem cwClean_stripRight : ∀ (l : List Char) (b : Bool), cwClean b l = true →
    cwClean b (stripRight l) = true := by
  intro l
  induction l with
  | nil => intro b h; exact h
  | cons c cs ih =>
    intro b h
    rw [cwClean] at h
    rw [stripRight]
    by_cases hsp : pyIsSpace c = true
    · rw [if_pos hsp] at h
      simp only [Bool.and_eq_true, beq_iff_eq, Bool.not_eq_true'] at h
      obtain ⟨⟨hc, hb⟩, hcs⟩ := h
      cases hsr : stripRight cs with
      | nil =>
        show cwClean b (if pyIsSpace c = true then [] else [c]) = true
        rw [if_pos hsp]
        rfl
      | cons d ds =>
        show cwClean b (c :: d :: ds) = true
        have h2 := ih true hcs
        rw [hsr] at h2
        subst hb
        rw [cwClean, if_pos hsp]
        simp [hc, h2]
    · rw [if_neg hsp] at h
      cases hsr : stripRight cs with
      | nil =>
        show cwClean b (if pyIsSpace c = true then [] else [c]) = true
        rw [if_neg hsp]
        rw [cwClean, if_neg hsp]
        rfl
      | cons d ds =>
        show cwClean b (c :: d :: ds) = true
        have h2 := ih false h
        rw [hsr] at h2
        rw [cwClean, if_neg hsp]
        exact h2

theorem stripRight_shape (c : Char) (cs : List Char) :
    stripRight (c :: cs) = [] ∨ ∃ ds, stripRight (c :: cs) = c :: ds := by
  rw [stripRight]
  cases hsr : stripRight cs with
  | nil =>
    by_cases hsp : pyIsSpace c = true
    · rw [if_pos hsp]; exact Or.inl rfl
    · rw [if_neg hsp]; exact Or.inr ⟨[], rfl⟩
  | cons d ds => exact Or.inr ⟨d :: ds, rfl⟩

theorem stripRight_idem : ∀ (l : List Char), stripRight (stripRight l) = stripRight l := by
  intro l
  induction l with
  | nil => rfl
  | cons c cs ih =>
    rw [stripRight]
    cases hsr : stripRight cs with
    | nil =>
      show stripRight (if pyIsSpace c = true then [] else [c])
        = (if pyIsSpace c = true then [] else [c])
      by_cases hsp : pyIsSpace c = true
      · rw [if_pos hsp]; rfl
      · rw [if_neg hsp]
        show (if pyIsSpace c = true then ([] : List Char) else [c]) = [c]
        rw [if_neg hsp]
    | cons d ds =>
      show stripRight (c :: d :: ds) = c :: d :: ds
      rw [hsr] at ih
      rw [stripRight, ih]

theorem dropWhile_shape (l : List Char) :
    l.dropWhile pyIsSpace = [] ∨
    ∃ c cs, l.dropWhile pyIsSpace = c :: cs ∧ pyIsSpace c = false := by
  induction l with
  | nil => exact Or.inl rfl
  | cons c cs ih =>
    by_cases hsp : pyIsSpace c = true
    · rw [List.dropWhile_cons, if_pos hsp]; exact ih
    · rw [List.dropWhile_cons, if_neg hsp]
      exact Or.inr ⟨c, cs, rfl, by simpa using hsp⟩

theorem pyStrip_idem (l : List Char) : pyStrip (pyStrip l) = pyStrip l := by
  rw [pyStrip, pyStrip]
  rcases dropWhile_shape l with h | ⟨c, cs, h, hc⟩
  · rw [h]
    rfl
  · rw [h]
    rcases stripRight_shape c cs with h2 | ⟨ds, h2⟩
    · rw [h2]
      rfl
    · rw [h2]
      rw [List.dropWhile_cons, if_neg (by simp [hc])]
      have h3 : stripRight (stripRight (c :: cs)) = stripRight (c :: cs) := stripRight_idem _
      rw [h2] at h3
      exact h3

theorem hasEntry_not_mem_rsc (t : String) (x : Char) (hx : hasEntry x = true)
    (hallow : allowedClassChar x = false) : x ∉ (remove_special_chars t).data := by
  intro hmem
  have h0 : x ∈ pyStrip (collapseWs (applyReplacements (specialsOf t.data) t.data)) := by
    simpa only [remove_special_chars] using hmem
  have h1 := mem_pyStrip x _ h0
  rcases mem_cwGo x _ false h1 with h2 | h2
  · by_cases hin : x ∈ t.data
    · have hsp : x ∈ specialsOf t.data :=
        List.mem_dedup.mpr (List.mem_filter.mpr ⟨hin, by simp [hallow]⟩)
      exact applyReplacements_kills x hx _ t.data hsp h2
    · exact applyReplacements_not_mem x hx _ t.data hin h2
  · subst h2
    rw [hasEntry_space] at hx
    exact absurd hx (by simp)

theorem count_replaceChar (x c : Char) (r : List Char) (hxc : x ≠ c) :
    ∀ l : List Char, List.count x (replaceChar c r l)
      = List.count x l + List.count c l * List.count x r := by
  intro l
  induction l with
  | nil => simp [replaceChar]
  | cons y ys ih =>
    rw [replaceChar]
    split
    · rename_i hy
      subst hy
      rw [List.count_append, ih, List.count_cons, List.count_cons]
      have h1 : (y == x) = false := by
        simp only [beq_eq_false_iff_ne, ne_eq]
        exact fun h => hxc h.symm
      have h2 : (y == y) = true := by simp
      rw [h1, h2]
      simp only [Bool.false_eq_true, if_false, if_true]
      ring
    · rename_i hy
      rw [List.count_cons, List.count_cons, List.count_cons, ih]
      have h2 : (y == c) = false := by
        simp only [beq_eq_false_iff_ne, ne_eq]
        exact hy
      rw [h2]
      simp only [Bool.false_eq_true, if_false]
      cases hbeq : y == x
      · simp only [Bool.false_eq_true, if_false]
        ring
      · simp only [if_true]
        ring

theorem count_applyReplacements (x : Char) (hx : hasEntry x = false) :
    ∀ (cars text : List Char),
      List.count x text ≤ List.count x (applyReplacements cars text) ∧
      (x ∉ valuesChars →
        List.count x (applyReplacements cars text) = List.count x text) := by
  intro cars
  induction cars with
  | nil => intro text; exact ⟨le_refl _, fun _ => rfl⟩
  | cons c cs ih =>
    intro text
    rw [applyReplacements]
    cases hl : List.lookup (pyUnicodeEscape c) to_replace with
    | none => exact ih text
    | some r =>
      have hxc : x ≠ c := by
        intro h; subst h; rw [hasEntry, hl] at hx; simp at hx
      have hcount := count_replaceChar x c r.data hxc text
      constructor
      · have h1 : List.count x text ≤ List.count x (replaceChar c r.data text) := by
          rw [hcount]; exact Nat.le_add_right _ _
        exact le_trans h1 (ih _).1
      · intro hnv
        have hr0 : List.count x r.data = 0 := by
          rw [List.count_eq_zero]
          intro hmem
          exact hnv (List.mem_flatMap.mpr ⟨(pyUnicodeEscape c, r), lookup_mem_pairs _ _ _ hl, hmem⟩)
        rw [(ih _).2 hnv, hcount, hr0]
        simp

theorem count_cwGo (x : Char) (hx : pyIsSpace x = false) :
    ∀ (l : List Char) (b : Bool), List.count x (cwGo b l) = List.count x l := by
  intro l
  induction l with
  | nil => intro b; rfl
  | cons c cs ih =>
    intro b
    rw [cwGo]
    have hcx : (c == x) = false ∨ pyIsSpace c = false := by
      by_cases h : c = x
      · subst h; exact Or.inr hx
      · exact Or.inl (by simpa using h)
    by_cases hsp : pyIsSpace c = true
    · have hcx2 : (c == x) = false := by
        rcases hcx with h | h
        · exact h
        · rw [hsp] at h; exact absurd h (by simp)
      rw [if_pos hsp]
      have hspx : ((' ' : Char) == x) = false := by
        simp only [beq_eq_false_iff_ne, ne_eq]
        intro h; rw [← h] at hx; exact absurd hx (by decide)
      cases b
      · rw [if_neg (by simp), List.count_cons, List.count_cons, ih, hcx2, hspx]
      · rw [if_pos rfl, ih, List.count_cons, hcx2]
        simp
    · rw [if_neg hsp, List.count_cons, List.count_cons, ih]

theorem stripRight_all_space : ∀ l : List Char, stripRight l = [] →
    ∀ y ∈ l, pyIsSpace y = true := by
  intro l
  induction l with
  | nil => intro _ y hy; simp at hy
  | cons c cs ih =>
    intro h y hy
    rw [stripRight] at h
    cases hsr : stripRight cs with
    | nil =>
      rw [hsr] at h
      by_cases hsp : pyIsSpace c = true
      · rcases List.mem_cons.mp hy with rfl | hy2
        · exact hsp
        · exact ih hsr y hy2
      · rw [if_neg hsp] at h
        simp at h
    | cons d ds =>
      rw [hsr] at h
      simp at h

theorem count_stripRight (x : Char) (hx : pyIsSpace x = false) :
    ∀ l : List Char, List.count x (stripRight l) = List.count x l := by
  intro l
  induction l with
  | nil => rfl
  | cons c cs ih =>
    rw [stripRight]
    cases hsr : stripRight cs with
    | nil =>
      have hall := stripRight_all_space cs hsr
      have hcs0 : List.count x cs = 0 := by
        rw [List.count_eq_zero]
        intro hm
        rw [hall x hm] at hx
        exact absurd hx (by simp)
      by_cases hsp : pyIsSpace c = true
      · rw [if_pos hsp]
        have hcx : (c == x) = false := by
          simp only [beq_eq_false_iff_ne, ne_eq]
          intro h; rw [h, hx] at hsp; exact absurd hsp (by simp)
        rw [List.count_cons, hcx, hcs0]
        simp
      · rw [if_neg hsp]
        rw [List.count_cons, List.count_cons, hcs0]
        simp
    | cons d ds =>
      rw [hsr] at ih
      rw [List.count_cons, List.count_cons]
      rw [← List.count_cons x d ds, ih, ← List.count_cons x c cs]

theorem count_dropWhile_sp (x : Char) (hx : pyIsSpace x = false) :
    ∀ l : List Char, List.count x (l.dropWhile pyIsSpace) = List.count x l := by
  intro l
  induction l with
  | nil => rfl
  | cons c cs ih =>
    by_cases hsp : pyIsSpace c = true
    · rw [List.dropWhile_cons, if_pos hsp, ih, List.count_cons]
      have hcx : (c == x) = false := by
        simp only [beq_eq_false_iff_ne, ne_eq]
        intro h; rw [h, hx] at hsp; exact absurd hsp (by simp)
      rw [hcx]
      simp
    · rw [List.dropWhile_cons, if_neg hsp]

/-- C1 (code bug): `text_from_html` joins the text of every node that
the parser returns — `tag_visible` is defined but never applied — so
the text of a script element and the body of a markup comment, both of
which `tag_visible` classifies as not renderable, appear verbatim in
the output, contradicting the visibility rule of the claim and the
docstring of the function. -/
theorem C1_invisible_text_in_output :
    text_from_html [⟨"script", false, "alert(1)"⟩, ⟨"p", true, "secret"⟩]
      = "alert(1) secret" ∧
    tag_visible ⟨"script", false, "alert(1)"⟩ = false ∧
    tag_visible ⟨"p", true, "secret"⟩ = false :=
  ⟨rfl, rfl, rfl⟩

/-- C2 (confirmed): `clean_enunciado` is exactly the five-stage
pipeline in the order URL removal (replacement empty), LaTeX
substitution (replacement latex), currency substitution (replacement
BRL), numeric substitution (replacement número), and whitespace
collapse with trim, over the lowercased extracted text, each stage a
global case-insensitive substitution completed before the next starts. -/
theorem C2_clean_enunciado_stage_order (html : List HtmlNode) :
    clean_enunciado html = specNormalisationPipeline html := rfl

/-- C3 (counterexample): the currency stage followed by the numeric
stage on the cited input does not produce the single-spaced string that
the claim states: the replacement tokens carry their own surrounding
spaces, so the stage output has doubled spaces and a trailing space. -/
theorem C3_counterexample :
    replace_by_patterns numerical_patterns " número "
      (replace_by_patterns currency_patterns " BRL " "Valor: R$ 1.234,56 e 10% de 50")
    ≠ "Valor: BRL e número de número" := by decide

/-- C3 (amended): the currency stage followed by the numeric stage
consumes the monetary group as one BRL token, the percentage before the
plain-number pattern, and the trailing integer as one número token,
yielding the double-spaced intermediate string; the single-spaced form
of the claim appears after the whitespace-collapse-and-trim stage that
`clean_enunciado` runs afterwards. -/
theorem C3_amended :
    replace_by_patterns numerical_patterns " número "
      (replace_by_patterns currency_patterns " BRL " "Valor: R$ 1.234,56 e 10% de 50")
    = "Valor:  BRL  e  número  de  número " ∧
    pyStripS (wsCollapse "Valor:  BRL  e  número  de  número ")
    = "Valor: BRL e número de número" :=
  ⟨by rfl, by rfl⟩

/-- C4 (code bug): the Greek letter alfa has an entry in the
transliteration table, but the allow-listed class is built from the
Unicode word class, which contains every Greek letter; alfa is
therefore removed from the special-character set before the lookup and
`remove_special_chars` leaves it unchanged, against the claim and
against the stated purpose of the table. -/
theorem C4_alpha_not_replaced :
    List.lookup (pyUnicodeEscape 'α') to_replace = some " alfa " ∧
    allowedClassChar 'α' = true ∧
    remove_special_chars "2 α 3" = "2 α 3" :=
  ⟨by rfl, by rfl, by rfl⟩

/-- C6 (code bug): the URL-removal stage is not idempotent.  The URL
pattern of `config` is a triple-quoted string wrapped over source
lines, so literal newline-and-tab sequences sit inside its
top-level-domain group; removing an ordinary URL can therefore uncover
a second match of the mangled bare-domain branch, and a second
application of the stage changes the text again. -/
theorem C6_url_stage_not_idempotent :
    replace_by_patterns [url_pattern] "" " foo.http://a.b/c\n:com" = " foo.\n:com" ∧
    replace_by_patterns [url_pattern] "" " foo.\n:com" = " " ∧
    replace_by_patterns [url_pattern] ""
        (replace_by_patterns [url_pattern] "" " foo.http://a.b/c\n:com")
      ≠ replace_by_patterns [url_pattern] "" " foo.http://a.b/c\n:com" :=
  ⟨by rfl, by rfl, by decide⟩

/-- C8 (counterexample): a block that is not blank after stripping but
lacks the id/markup separator is not skipped: the tuple unpacking of
the split raises a ValueError. -/
theorem C8_counterexample :
    0 < (pyStripS "abc").length ∧
    processBlock "abc" = Except.error "ValueError" :=
  ⟨by decide, by rfl⟩

/-- C9 (code bug): the resume check of the driver tests
`download_dir/id.csv`, but the rename step after the download produces
`download_dir/id` without the extension, so a completed statement is
never recognised: running the driver again over a state that already
holds the renamed artifact submits the statement a second time. -/
theorem C9_resume_check_mismatch :
    artifactCheckPath "dl" "q1" ≠ renameTargetPath "dl" "q1" ∧
    renameTargetPath "dl" "q1" ∈ (processStatement "dl" "tx" "q1" ⟨[], 0⟩).files ∧
    (processStatement "dl" "tx" "q1" (processStatement "dl" "tx" "q1" ⟨[], 0⟩)).submissions = 2 :=
  ⟨by decide, by decide, by rfl⟩

/-- C5 (confirmed): `remove_special_chars` is idempotent.  One
application eliminates every occurrence of each special character that
has a table entry, no replacement string reintroduces such a character,
and the final whitespace collapse and trim are themselves idempotent, so
a second application changes nothing. -/
theorem C5_remove_special_chars_idempotent (t : String) :
    remove_special_chars (remove_special_chars t) = remove_special_chars t := by
  have hnoent : ∀ c ∈ specialsOf (remove_special_chars t).data, hasEntry c = false := by
    intro c hc
    have hmem := List.mem_dedup.mp hc
    have hcl : c ∈ (remove_special_chars t).data := (List.mem_filter.mp hmem).1
    have hallow : allowedClassChar c = false := by
      have h2 := (List.mem_filter.mp hmem).2
      simpa using h2
    cases he : hasEntry c with
    | false => rfl
    | true => exact absurd hcl (hasEntry_not_mem_rsc t c he hallow)
  have hid : applyReplacements (specialsOf (remove_special_chars t).data)
      (remove_special_chars t).data = (remove_special_chars t).data :=
    applyReplacements_id _ _ hnoent
  have hclean : cwClean false (pyStrip (collapseWs (applyReplacements (specialsOf t.data) t.data))) = true := by
    apply cwClean_stripRight
    apply cwClean_dropWhile
    exact cwClean_cwGo _ false
  show (⟨pyStrip (collapseWs (applyReplacements (specialsOf (remove_special_chars t).data)
      (remove_special_chars t).data))⟩ : String) = remove_special_chars t
  rw [hid]
  have hdata : (remove_special_chars t).data
      = pyStrip (collapseWs (applyReplacements (specialsOf t.data) t.data)) := rfl
  rw [hdata, collapseWs, cwGo_fix _ false hclean, pyStrip_idem]
  rfl

/-- C7 (counterexample): the tab character is outside the allow-listed
class and has no table entry, yet it does not pass through unchanged:
the final whitespace collapse rewrites it to a space. -/
theorem C7_counterexample :
    allowedClassChar '\t' = false ∧
    List.lookup (pyUnicodeEscape '\t') to_replace = none ∧
    remove_special_chars "a\tb" = "a b" ∧
    '\t' ∉ (remove_special_chars "a\tb").data :=
  ⟨by decide, by rfl, by rfl, by decide⟩

/-- C7 (amended): every non-whitespace character outside the
allow-listed class with no table entry passes through silently: no
occurrence of it is ever removed, and when the character also appears in
no replacement string its number of occurrences is preserved exactly.
Whitespace characters are instead normalised by the final collapse. -/
theorem C7_unknown_chars_pass_through (t : String) (c : Char)
    (h1 : allowedClassChar c = false)
    (h2 : List.lookup (pyUnicodeEscape c) to_replace = none)
    (h3 : pyIsSpace c = false) :
    List.count c t.data ≤ List.count c (remove_special_chars t).data ∧
    (c ∉ valuesChars →
      List.count c (remove_special_chars t).data = List.count c t.data) := by
  have hx : hasEntry c = false := by rw [hasEntry, h2]; rfl
  have hA := count_applyReplacements c hx (specialsOf t.data) t.data
  have hdata : (remove_special_chars t).data
      = pyStrip (collapseWs (applyReplacements (specialsOf t.data) t.data)) := rfl
  rw [hdata, pyStrip, collapseWs, count_stripRight c h3, count_dropWhile_sp c h3,
    count_cwGo c h3]
  exact hA

/-- Witness for C7 at the question mark, a special character with no
table entry, which passes through `remove_special_chars` unchanged. -/
theorem C7_unknown_chars_pass_through_witness :
    allowedClassChar '?' = false ∧
    (List.count '?' "a?b".data ≤ List.count '?' (remove_special_chars "a?b").data ∧
     ('?' ∉ valuesChars →
       List.count '?' (remove_special_chars "a?b").data = List.count '?' "a?b".data)) :=
  ⟨by decide, C7_unknown_chars_pass_through "a?b" '?' (by decide) (by decide) (by decide)⟩

/-- C8 (amended): a block that is blank after stripping is skipped
silently; a non-blank block splitting into exactly an identifier and a
markup part is processed; but a non-blank block without exactly one
id/markup separator raises a ValueError from tuple unpacking instead of
being skipped. -/
theorem C8_block_handling (q : String) :
    ((pyStripS q).length = 0 → processBlock q = Except.ok none) ∧
    (∀ a b, 0 < (pyStripS q).length → pySplitS idDelim q = [a, b] →
      processBlock q = Except.ok (some (pyStripS a, b))) ∧
    (0 < (pyStripS q).length → (pySplitS idDelim q).length ≠ 2 →
      processBlock q = Except.error "ValueError") := by
  refine ⟨?_, ?_, ?_⟩
  · intro h
    rw [processBlock, if_neg (by omega)]
  · intro a b hl hsplit
    rw [processBlock, if_pos hl, hsplit]
  · intro hl hlen
    rw [processBlock, if_pos hl]
    cases hsp : pySplitS idDelim q with
    | nil => rfl
    | cons s1 rest =>
      cases rest with
      | nil => rfl
      | cons s2 rest2 =>
        cases rest2 with
        | nil => rw [hsp] at hlen; simp at hlen
        | cons s3 r3 => rfl

/-- Witness for C8 at a well-formed block, which is processed into its
stripped identifier and markup. -/
theorem C8_block_handling_witness :
    0 < (pyStripS " q1 #;#;#body").length ∧
    processBlock " q1 #;#;#body" = Except.ok (some ("q1", "body")) := by
  constructor
  · decide
  · have h := (C8_block_handling " q1 #;#;#body").2.1 " q1 " "body" (by decide) (by decide)
    rw [h]
    rfl

/-- C10 (confirmed): every uppercase letter in the output of
`clean_enunciado` is one of B, R, L — the extracted text is lowercased
before the substitution stages and the BRL token of the currency stage
is the only replacement containing uppercase letters. -/
theorem C10_only_BRL_uppercase (html : List HtmlNode) (c : Char)
    (hmem : c ∈ (clean_enunciado html).data) (hup : isUpperLetter c = true) :
    c = 'B' ∨ c = 'R' ∨ c = 'L' := by
  have h0 : c ∈ pyStrip (collapseWs
      (replace_by_patterns numerical_patterns " número "
        (replace_by_patterns currency_patterns " BRL "
          (replace_by_patterns latex_patterns " latex "
            (replace_by_patterns [url_pattern] ""
              (strLower (text_from_html html)))))).data) := by
    simpa only [clean_enunciado, pyStripS, wsCollapse] using hmem
  have h1 := mem_pyStrip c _ h0
  have hspace : isUpperLetter ' ' = false := by decide
  rcases mem_cwGo c _ false h1 with h2 | h2
  case inr => rw [h2] at hup; rw [hspace] at hup; exact absurd hup (by simp)
  rcases mem_replace_by_patterns c " número " numerical_patterns _ h2 with h3 | h3
  case inr =>
    have : ∀ y ∈ (" número " : String).data, isUpperLetter y = false := by decide
    rw [this c h3] at hup; exact absurd hup (by simp)
  rcases mem_replace_by_patterns c " BRL " currency_patterns _ h3 with h4 | h4
  case inr =>
    have h5 : c = ' ' ∨ c = 'B' ∨ c = 'R' ∨ c = 'L' ∨ c = ' ' := by
      simpa using h4
    rcases h5 with rfl | h5 | h5 | h5 | rfl
    · rw [hspace] at hup; exact absurd hup (by simp)
    · exact Or.inl h5
    · exact Or.inr (Or.inl h5)
    · exact Or.inr (Or.inr h5)
    · rw [hspace] at hup; exact absurd hup (by simp)
  rcases mem_replace_by_patterns c " latex " latex_patterns _ h4 with h5 | h5
  case inr =>
    have : ∀ y ∈ (" latex " : String).data, isUpperLetter y = false := by decide
    rw [this c h5] at hup; exact absurd hup (by simp)
  rcases mem_replace_by_patterns c "" [url_pattern] _ h5 with h6 | h6
  case inr => exact absurd h6 (by simp)
  rw [not_upper_strLower _ c h6] at hup
  exact absurd hup (by simp)

/-- Witness for C10 at a concrete document containing a currency
literal, whose cleaned form is the single token BRL. -/
theorem C10_only_BRL_uppercase_witness :
    'B' ∈ (clean_enunciado [⟨"p", false, "R$ 1,50"⟩]).data ∧
    ('B' = 'B' ∨ 'B' = 'R' ∨ 'B' = 'L') :=
  ⟨by decide,
   C10_only_BRL_uppercase [⟨"p", false, "R$ 1,50"⟩] 'B' (by decide) (by decide)⟩

/-- Witness for C2 at a concrete document. -/
theorem C2_clean_enunciado_stage_order_witness :
    clean_enunciado [⟨"p", false, "R$ 2,00"⟩]
      = specNormalisationPipeline [⟨"p", false, "R$ 2,00"⟩] :=
  C2_clean_enunciado_stage_order [⟨"p", false, "R$ 2,00"⟩]

/-- Witness for C5 at a concrete string holding a mapped special
character. -/
theorem C5_remove_special_chars_idempotent_witness :
    remove_special_chars (remove_special_chars "x $ y; z")
      = remove_special_chars "x $ y; z" :=
  C5_remove_special_chars_idempotent "x $ y; z"
